import Mathlib

/-!
Verification of the AutoPost layout-driven compositing engine (`app.py`).

The Python values that flow through the configuration code (JSON dicts,
lists, ints, bools, strings, None) are shallowly embedded as `PyVal`.
Mutable containers (dicts and lists) carry an identity address (`Nat`),
which models Python object identity: two occurrences of the same address
denote the same heap object, so an in-place mutation through one
occurrence is visible through every other occurrence.  `deepcopy` is
modelled with an explicit supply of fresh addresses.
-/

inductive PyVal : Type where
  | vInt : Int → PyVal
  | vBool : Bool → PyVal
  | vStr : String → PyVal
  | vNone : PyVal
  | vList : Nat → List PyVal → PyVal
  | vDict : Nat → List (String × PyVal) → PyVal

/-- Python `isinstance(v, int)`.  In Python, `bool` is a subclass of `int`,
so `isinstance(True, int)` is `True`; the embedding reflects that. -/
def isPyInt : PyVal → Bool
  | .vInt _ => true
  | .vBool _ => true
  | _ => false

/-- Python `d.get(k)` / `d[k]` lookup on a dict body (first matching key;
keys of a Python dict are unique, so this is exact). -/
def dictGet (es : List (String × PyVal)) (k : String) : Option PyVal :=
  match es with
  | [] => none
  | e :: rest => if e.1 = k then some e.2 else dictGet rest k

/-- Python `d[k] = v`: replace the value of an existing key in place,
otherwise append the new binding. -/
def dictSet (es : List (String × PyVal)) (k : String) (v : PyVal) : List (String × PyVal) :=
  match es with
  | [] => [(k, v)]
  | e :: rest => if e.1 = k then (k, v) :: rest else e :: dictSet rest k v

/-- `valid_slot` from `validate_layout_config` (app.py:80-82):
`isinstance(slot, dict) and required.issubset(slot) and
all(isinstance(slot[k], int) for k in required)` with
`required = {"x","y","w","h"}`. -/
def valid_slot (slot : PyVal) : Bool :=
  match slot with
  | .vDict _ es =>
      ["x", "y", "w", "h"].all (fun k =>
        match dictGet es k with
        | some v => isPyInt v
        | none => false)
  | _ => false

/-- `valid_format` from `validate_layout_config` (app.py:84-93). -/
def valid_format (f : PyVal) : Bool :=
  match f with
  | .vDict _ es =>
      (match dictGet es "slots" with
       | some (.vList _ slots) => !slots.isEmpty && slots.all valid_slot
       | _ => false) &&
      (match dictGet es "text_pos" with
       | none => true
       | some .vNone => true
       | some (.vDict _ _) => true
       | some _ => false)
  | _ => false

/-- `validate_layout_config` (app.py:75-99). -/
def validate_layout_config (config : PyVal) : Bool :=
  match config with
  | .vDict _ es =>
      match dictGet es "formats" with
      | some fv =>
          match fv with
          | .vDict _ fes => !fes.isEmpty && fes.all (fun p => valid_format p.2)
          | _ => false
      | none => valid_format config
  | _ => false

mutual
/-- Addresses of all mutable (dict/list) nodes reachable in a value. -/
def addrsV : PyVal → List Nat
  | .vInt _ => []
  | .vBool _ => []
  | .vStr _ => []
  | .vNone => []
  | .vList a xs => a :: addrsL xs
  | .vDict a es => a :: addrsE es
def addrsL : List PyVal → List Nat
  | [] => []
  | x :: xs => addrsV x ++ addrsL xs
def addrsE : List (String × PyVal) → List Nat
  | [] => []
  | e :: es => addrsV e.2 ++ addrsE es
end

/-- Addresses reachable from an optional value (empty when absent). -/
def optAddrs (o : Option PyVal) : List Nat :=
  match o with
  | none => []
  | some v => addrsV v

mutual
/-- `copy.deepcopy`, modelled with an explicit fresh-address supply:
the copy has the same structure and leaf values, but every dict/list
node gets a fresh address taken from the supply.  Returns the copy and
the next unused address. -/
def dcV : Nat → PyVal → PyVal × Nat
  | s, .vInt n => (.vInt n, s)
  | s, .vBool b => (.vBool b, s)
  | s, .vStr t => (.vStr t, s)
  | s, .vNone => (.vNone, s)
  | s, .vList _ xs => ((.vList (dcL s xs).2 (dcL s xs).1), (dcL s xs).2 + 1)
  | s, .vDict _ es => ((.vDict (dcE s es).2 (dcE s es).1), (dcE s es).2 + 1)
def dcL : Nat → List PyVal → List PyVal × Nat
  | s, [] => ([], s)
  | s, x :: xs => ((dcV s x).1 :: (dcL (dcV s x).2 xs).1, (dcL (dcV s x).2 xs).2)
def dcE : Nat → List (String × PyVal) → List (String × PyVal) × Nat
  | s, [] => ([], s)
  | s, e :: es => ((e.1, (dcV s e.2).1) :: (dcE (dcV s e.2).2 es).1, (dcE (dcV s e.2).2 es).2)
end

mutual
/-- Erase identity addresses, leaving pure structural content.  Two
values with the same `stripV` hold equal data (`==` in Python). -/
def stripV : PyVal → PyVal
  | .vInt n => .vInt n
  | .vBool b => .vBool b
  | .vStr t => .vStr t
  | .vNone => .vNone
  | .vList _ xs => .vList 0 (stripL xs)
  | .vDict _ es => .vDict 0 (stripE es)
def stripL : List PyVal → List PyVal
  | [] => []
  | x :: xs => stripV x :: stripL xs
def stripE : List (String × PyVal) → List (String × PyVal)
  | [] => []
  | e :: es => (e.1, stripV e.2) :: stripE es
end

mutual
/-- In-place mutation of the dict object whose identity address is `a`:
apply `f` to the entry list of every dict node carrying that address
(in a tree view of the heap, all occurrences of address `a` are the same
object, so mutating it rewrites each occurrence). -/
def mutAtV (a : Nat) (f : List (String × PyVal) → List (String × PyVal)) : PyVal → PyVal
  | .vInt n => .vInt n
  | .vBool b => .vBool b
  | .vStr t => .vStr t
  | .vNone => .vNone
  | .vList b xs => .vList b (mutAtL a f xs)
  | .vDict b es => if b = a then .vDict b (f (mutAtE a f es)) else .vDict b (mutAtE a f es)
def mutAtL (a : Nat) (f : List (String × PyVal) → List (String × PyVal)) : List PyVal → List PyVal
  | [] => []
  | x :: xs => mutAtV a f x :: mutAtL a f xs
def mutAtE (a : Nat) (f : List (String × PyVal) → List (String × PyVal)) :
    List (String × PyVal) → List (String × PyVal)
  | [] => []
  | e :: es => (e.1, mutAtV a f e.2) :: mutAtE a f es
end

/-- `get_format_config` (app.py:111-121).  `supply` is the fresh-address
supply used by the defaults (`{}` literals allocate fresh empty dicts)
and by `deepcopy`; the stored config only ever uses addresses below the
supply.  In the branch where `config["formats"]` is present but not a
dict, Python would raise `AttributeError`; that branch is unreachable
for validated configs and is modelled as `vNone`. -/
def get_format_config (config : PyVal) (format_name : String) (supply : Nat) : PyVal × Nat :=
  match config with
  | .vDict _ es =>
      match dictGet es "formats" with
      | some (.vDict _ fes) =>
          let entry := (dictGet fes format_name).getD (.vDict supply [])
          let s1 := supply + 1
          let copied := (dcV s1 entry).1
          let s2 := (dcV s1 entry).2
          let fsVal := (dictGet es "font_size").getD (.vDict s2 [])
          let s3 := s2 + 1
          let fcVal := (dictGet es "font_color").getD (.vStr "#FFFFFF")
          match copied with
          | .vDict a2 ces =>
              ((.vDict a2 (dictSet (dictSet ces "font_size" fsVal) "font_color" fcVal)), s3)
          | other => (other, s3)
      | some _ => (.vNone, supply)
      | none => (config, supply)
  | _ => (.vNone, supply)

/-- Spec reading (§4.1): "a mapping". -/
def SpecIsMapping (v : PyVal) : Prop :=
  ∃ a es, v = .vDict a es

/-- Spec reading (§3/§4.1): a slot is "a mapping containing integer
`x,y,w,h`".  In the Python data model an integer value is an `int`,
which includes `bool` (claim C9). -/
def SpecValidSlot (v : PyVal) : Prop :=
  ∃ a es, v = .vDict a es ∧
    ∀ k ∈ ["x", "y", "w", "h"],
      ∃ u, dictGet es k = some u ∧ ((∃ n, u = .vInt n) ∨ (∃ b, u = .vBool b))

/-- Spec reading (§4.1): "`fmt` is a mapping; `slots` is a non-empty
sequence where every element passes `valid_slot`; if present,
`text_pos` must be a mapping" (a stored `None` counts as absent, as in
Python's `dict.get`). -/
def SpecValidFormat (v : PyVal) : Prop :=
  ∃ a es, v = .vDict a es ∧
    (∃ la slots, dictGet es "slots" = some (.vList la slots) ∧ slots ≠ [] ∧
      ∀ s ∈ slots, SpecValidSlot s) ∧
    (∀ tp, dictGet es "text_pos" = some tp → tp ≠ .vNone → ∃ ta tes, tp = .vDict ta tes)

/-- Spec reading (§4.1): "a config is valid iff: it is a mapping; if it
declares `formats`, that mapping is non-empty and every value passes
`valid_format`; otherwise the config itself must pass `valid_format`." -/
def SpecValidConfig (c : PyVal) : Prop :=
  ∃ a es, c = .vDict a es ∧
    ((∃ fa fes, dictGet es "formats" = some (.vDict fa fes) ∧ fes ≠ [] ∧
        ∀ e ∈ fes, SpecValidFormat e.2) ∨
     (dictGet es "formats" = none ∧ SpecValidFormat c))

/-- The chosen format's entries merged with the global `font_size` /
`font_color` settings, as pure data (addresses erased): what
`get_format_config` is specified to return in the multi-format case. -/
def mergedFormatEntry (es ees : List (String × PyVal)) : PyVal :=
  .vDict 0
    (dictSet
      (dictSet (stripE ees) "font_size" (stripV ((dictGet es "font_size").getD (.vDict 0 []))))
      "font_color" (stripV ((dictGet es "font_color").getD (.vStr "#FFFFFF"))))

/-- A minimal legacy (single-format) layout config. -/
def cfgLegacyC1 : PyVal :=
  .vDict 0 [("slots", .vList 1 [.vDict 2
    [("x", .vInt 0), ("y", .vInt 0), ("w", .vInt 100), ("h", .vInt 100)]])]

/-- A mutation: append a computed key to a dict body (the spec's
"appending computed keys" example of later mutation). -/
def addComputedKey (es : List (String × PyVal)) : List (String × PyVal) :=
  es ++ [("computed", .vInt 1)]

/-- A config whose slot coordinates are booleans rather than ordinary
integers. -/
def cfgBoolSlot : PyVal :=
  .vDict 0 [("slots", .vList 1 [.vDict 2
    [("x", .vBool true), ("y", .vBool false), ("w", .vBool true), ("h", .vBool true)]])]

/-- A format lacking `slots`. -/
def cfgNoSlots : PyVal :=
  .vDict 0 [("text_pos", .vDict 1 [])]

/-- A format whose single slot is missing `w`. -/
def cfgMissingW : PyVal :=
  .vDict 0 [("slots", .vList 1 [.vDict 2 [("x", .vInt 0), ("y", .vInt 0), ("h", .vInt 100)]])]

/-- A format whose single slot has the string `"100"` as `w`. -/
def cfgStringW : PyVal :=
  .vDict 0 [("slots", .vList 1 [.vDict 2
    [("x", .vInt 0), ("y", .vInt 0), ("w", .vStr "100"), ("h", .vInt 100)]])]

/-- Number of entries of a dict value (an observable used to tell two
dict states apart). -/
def dictLen : PyVal → Nat
  | .vDict _ es => es.length
  | _ => 0

/-- Entries of a small multi-format config (global `font_size` and
`font_color` plus one format). -/
def esMultiC1 : List (String × PyVal) :=
  [("formats", .vDict 1 [("feed", .vDict 2 [("slots", .vList 3 [])])]),
   ("font_size", .vDict 4 [("modelo", .vInt 42)]),
   ("font_color", .vStr "#FFF")]

/-- Entries of the `"feed"` format inside `esMultiC1`. -/
def eesFeedC1 : List (String × PyVal) :=
  [("slots", .vList 3 [])]

/-- The multi-format config built from `esMultiC1`. -/
def cfgMultiC1 : PyVal :=
  .vDict 0 esMultiC1

/-- The ASCII character of a decimal digit. -/
def digitChar10 (d : Nat) : Char :=
  Char.ofNat (48 + d)

/-- Decimal digits of `n`, least significant first.  Structural
recursion on a fuel argument so that the definition reduces in the
kernel; `fuel ≥ n` is always enough fuel. -/
def digitsRevAux : Nat → Nat → List Nat
  | _, 0 => []
  | 0, _ + 1 => []
  | fuel + 1, n + 1 => (n + 1) % 10 :: digitsRevAux fuel ((n + 1) / 10)

/-- Python `str(n)` for a nonnegative integer. -/
def natToChars (n : Nat) : List Char :=
  if n = 0 then ['0'] else ((digitsRevAux n n).map digitChar10).reverse

/-- Zero-pad a digit group on the left to width 3 (the padding Python's
thousands grouping applies to every group after the first). -/
def padTo3 (l : List Char) : List Char :=
  List.replicate (3 - l.length) '0' ++ l

/-- Python `f"{n:02d}"` (used only with `n < 100`). -/
def pad2Chars (n : Nat) : List Char :=
  if n < 10 then '0' :: natToChars n else natToChars n

/-- Python `f"{n:,}"`: decimal rendering with a comma between groups of
three digits, grouped from the least significant end (fuel-bounded;
`fuel ≥ n` suffices because `n` shrinks by a factor of 1000). -/
def commaAux : Nat → Nat → List Char
  | 0, n => natToChars n
  | fuel + 1, n =>
      if n < 1000 then natToChars n
      else commaAux fuel (n / 1000) ++ ',' :: padTo3 (natToChars (n % 1000))

/-- Python `f"{n:,}"`. -/
def commaOfNat (n : Nat) : List Char :=
  commaAux n n

/-- Python `s.replace(",", ".")`, character-wise. -/
def commaToDot (l : List Char) : List Char :=
  l.map (fun c => if c = ',' then '.' else c)

/-- Python `int(s)` on a string of decimal digits (most significant
first), as produced by `''.join(c for c in raw if c.isdigit())`. -/
def parseDigits (l : List Char) : Nat :=
  l.foldl (fun a c => 10 * a + (c.toNat - 48)) 0

/-- `format_price_value` (app.py:407-419).  Digit extraction uses
`Char.isDigit` (ASCII `0-9`), the relevant case of Python's
`str.isdigit` for this app's inputs. -/
def format_price_value (raw : String) : String :=
  let digits := raw.toList.filter Char.isDigit
  if digits.isEmpty then ""
  else
    let cents := parseDigits digits
    if cents = 0 then "R$ 0,00"
    else
      let reais := cents / 100
      let centavos := cents % 100
      let reaisStr := commaToDot (commaOfNat reais)
      "R$ " ++ String.mk reaisStr ++ "," ++ String.mk (pad2Chars centavos)

/-- `format_km_value` (app.py:422-428). -/
def format_km_value (raw : String) : String :=
  let digits := raw.toList.filter Char.isDigit
  if digits.isEmpty then ""
  else String.mk (commaToDot (commaOfNat (parseDigits digits)))

/-- `format_year_value` (app.py:431-439). -/
def format_year_value (raw : String) : String :=
  let digits := raw.toList.filter Char.isDigit
  if digits.isEmpty then ""
  else
    let d8 := digits.take 8
    if d8.length ≤ 4 then String.mk d8
    else String.mk (d8.take 4) ++ "/" ++ String.mk (d8.drop 4)

/-- Spec reading (§4.5): "integer part grouped every three digits by a
dot" — the grouping written directly with dots, independently of the
comma-format-then-replace route the code takes. -/
def specGroupDotsAux : Nat → Nat → List Char
  | 0, n => natToChars n
  | fuel + 1, n =>
      if n < 1000 then natToChars n
      else specGroupDotsAux fuel (n / 1000) ++ '.' :: padTo3 (natToChars (n % 1000))

/-- Spec-side dot grouping of a nonnegative integer. -/
def specGroupDots (n : Nat) : List Char :=
  specGroupDotsAux n n

/-- The ellipsis appended by `fit_text_to_width`. -/
def eChars : List Char := ['.', '.', '.']

/-- Measured text width under a font metric `f` giving each character's
advance width in pixels (`draw.textlength` for a font whose text length
is the sum of per-character advances). -/
def textWidth (f : Char → Nat) (l : List Char) : Nat :=
  (l.map f).sum

/-- The `while truncated and draw.textlength(f"{truncated}{ellipsis}",
font=font) > max_width: truncated = truncated[:-1]` loop of
`fit_text_to_width` (app.py:352-354).  Fuel-bounded structural
recursion; `fuel ≥ length` is always enough fuel since each iteration
drops the last character. -/
def truncWhileAux (f : Char → Nat) (maxWidth : Int) : Nat → List Char → List Char
  | _, [] => []
  | 0, t => t
  | fuel + 1, t =>
      if (textWidth f (t ++ eChars) : Int) > maxWidth then
        truncWhileAux f maxWidth fuel t.dropLast
      else t

/-- `fit_text_to_width` (app.py:342-355), with the font metric
abstracted as per-character advance widths and text as character
lists. -/
def fit_text_to_width (f : Char → Nat) (text : List Char) (maxWidth : Int) : List Char :=
  if maxWidth ≤ 0 then text
  else if (textWidth f text : Int) ≤ maxWidth then text
  else if (textWidth f eChars : Int) > maxWidth then []
  else
    let truncated := truncWhileAux f maxWidth text.length text
    if truncated = [] then [] else truncated ++ eChars

/-- A font whose glyphs all have advance width 10. -/
def constWidth10 : Char → Nat := fun _ => 10

/-- An RGBA pixel (PIL channel values 0..255). -/
structure RGBA where
  r : Nat
  g : Nat
  b : Nat
  a : Nat
deriving DecidableEq

/-- The fully transparent pixel `(0, 0, 0, 0)`. -/
def transparent : RGBA := ⟨0, 0, 0, 0⟩

/-- A PIL image: dimensions and a pixel function.  All images are
carried in RGBA form, so `convert("RGBA")` (app.py:254-256) is the
identity in this model. -/
structure Img where
  width : Nat
  height : Nat
  pix : Nat → Nat → RGBA

/-- `Image.new("RGBA", (w, h), c)`. -/
def newImg (w h : Nat) (c : RGBA) : Img :=
  ⟨w, h, fun _ _ => c⟩

/-- Exact division of rationals, computed on numerators and
denominators (`qdiv a b = a / b`, with `qdiv a 0 = 0`).  The standard
library's rational arithmetic is `@[irreducible]`; these `Rat.divInt`
forms reduce in the kernel, which lets concrete renders evaluate. -/
def qdiv (a b : ℚ) : ℚ :=
  Rat.divInt (a.num * b.den) (a.den * b.num)

/-- Exact addition of rationals in kernel-reducible form. -/
def qadd (a b : ℚ) : ℚ :=
  Rat.divInt (a.num * b.den + b.num * a.den) ((a.den : Int) * b.den)

/-- Exact subtraction of rationals in kernel-reducible form. -/
def qsub (a b : ℚ) : ℚ :=
  Rat.divInt (a.num * b.den - b.num * a.den) ((a.den : Int) * b.den)

/-- Exact multiplication of rationals in kernel-reducible form. -/
def qmul (a b : ℚ) : ℚ :=
  Rat.divInt (a.num * b.num) ((a.den : Int) * b.den)

/-- Clamp a sample coordinate into the source pixel range. -/
def clampIdx (srcN : Nat) (i : Int) : Nat :=
  min i.toNat (srcN - 1)

/-- Point-sample a source image at rational coordinates.  Resampling is
abstracted: the claims proved here do not depend on the LANCZOS filter
kernel, only on the facts that a resize produces the requested
dimensions and reads only source pixels. -/
def sampleQ (img : Img) (qx qy : ℚ) : RGBA :=
  img.pix (clampIdx img.width qx.floor) (clampIdx img.height qy.floor)

/-- `image.resize((w, h), box=...)` (the form `ImageOps.fit` uses):
destination pixel centers map affinely into the source box. -/
def resizeBox (img : Img) (w h : Nat) (boxL boxT boxW boxH : ℚ) : Img :=
  { width := w, height := h,
    pix := fun x y =>
      sampleQ img (qadd boxL (qdiv (qmul (qadd (x : ℚ) (mkRat 1 2)) boxW) (w : ℚ)))
        (qadd boxT (qdiv (qmul (qadd (y : ℚ) (mkRat 1 2)) boxH) (h : ℚ))) }

/-- `image.resize((w, h))` over the whole source. -/
def resizeImg (img : Img) (w h : Nat) : Img :=
  resizeBox img w h 0 0 (img.width : ℚ) (img.height : ℚ)

/-- Python `round()`: round half to even. -/
def pyRound (q : ℚ) : Int :=
  if qsub q (q.floor : ℚ) < mkRat 1 2 then q.floor
  else if mkRat 1 2 < qsub q (q.floor : ℚ) then q.floor + 1
  else if q.floor % 2 = 0 then q.floor else q.floor + 1

/-- `ImageOps.contain(image, (w, h), LANCZOS)` (Pillow): resize
preserving aspect ratio so the result fits inside `(w, h)`.  Ratio
arithmetic is exact rational here where Pillow uses binary floats. -/
def imageOpsContain (img : Img) (w h : Nat) : Img :=
  let imA : ℚ := qdiv (img.width : ℚ) (img.height : ℚ)
  let dstA : ℚ := qdiv (w : ℚ) (h : ℚ)
  if imA = dstA then resizeImg img w h
  else if dstA < imA then
    resizeImg img w (pyRound (qmul (qdiv (img.height : ℚ) (img.width : ℚ)) (w : ℚ))).toNat
  else
    resizeImg img (pyRound (qmul (qdiv (img.width : ℚ) (img.height : ℚ)) (h : ℚ))).toNat h

/-- `ImageOps.fit(image, (w, h), LANCZOS)` (Pillow, `bleed=0`,
`centering=(0.5, 0.5)`): center-crop to the target aspect ratio, then
resize to exactly `(w, h)`. -/
def imageOpsFit (img : Img) (w h : Nat) : Img :=
  let liveW : ℚ := img.width
  let liveH : ℚ := img.height
  let liveA : ℚ := qdiv liveW liveH
  let outA : ℚ := qdiv (w : ℚ) (h : ℚ)
  let cropW : ℚ := if outA ≤ liveA then qmul liveH outA else liveW
  let cropH : ℚ := if outA ≤ liveA then liveH else qdiv liveW outA
  resizeBox img w h (qmul (qsub liveW cropW) (mkRat 1 2)) (qmul (qsub liveH cropH) (mkRat 1 2))
    cropW cropH

/-- `canvas.paste(img, (ox, oy))` without a mask: all channels of the
pasted region are overwritten (alpha included), the rest of the canvas
is unchanged, and out-of-canvas parts are clipped by the bounds test. -/
def pasteAt (canvas img : Img) (ox oy : Int) : Img :=
  { width := canvas.width, height := canvas.height,
    pix := fun x y =>
      if 0 ≤ (x : Int) - ox ∧ (x : Int) - ox < img.width
          ∧ 0 ≤ (y : Int) - oy ∧ (y : Int) - oy < img.height then
        img.pix ((x : Int) - ox).toNat ((y : Int) - oy).toNat
      else canvas.pix x y }

/-- The filled region of
`ImageDraw.rounded_rectangle([(0, 0), (w-1, h-1)], radius, fill=255)`:
the closed bounding box, with each corner square cut back to the closed
quarter disc of radius `radius` centered `radius` pixels inside that
corner. -/
def InRoundedRect (w h : Nat) (radius x y : Int) : Prop :=
  0 ≤ x ∧ x ≤ (w : Int) - 1 ∧ 0 ≤ y ∧ y ≤ (h : Int) - 1
  ∧ (radius ≤ x ∨ radius ≤ y ∨ (radius - x) ^ 2 + (radius - y) ^ 2 ≤ radius ^ 2)
  ∧ (x ≤ (w : Int) - 1 - radius ∨ radius ≤ y
      ∨ (x - ((w : Int) - 1 - radius)) ^ 2 + (radius - y) ^ 2 ≤ radius ^ 2)
  ∧ (radius ≤ x ∨ y ≤ (h : Int) - 1 - radius
      ∨ (radius - x) ^ 2 + (y - ((h : Int) - 1 - radius)) ^ 2 ≤ radius ^ 2)
  ∧ (x ≤ (w : Int) - 1 - radius ∨ y ≤ (h : Int) - 1 - radius
      ∨ (x - ((w : Int) - 1 - radius)) ^ 2 + (y - ((h : Int) - 1 - radius)) ^ 2 ≤ radius ^ 2)

instance (w h : Nat) (radius x y : Int) : Decidable (InRoundedRect w h radius x y) := by
  unfold InRoundedRect
  infer_instance

/-- `create_rounded_mask` (app.py:192-206): an L-mode mask, 255 inside
the rounded rectangle and 0 outside (`ImageDraw` rasterization is
aliased, so mask values are only 0 or 255). -/
def create_rounded_mask (w h : Nat) (radius : Int) : Nat → Nat → Nat :=
  fun x y => if InRoundedRect w h radius x y then 255 else 0

/-- `result.paste(fitted, (0, 0), mask)` with a binary L-mode mask:
copy the pasted pixel where the mask is 255, keep the canvas pixel
where it is 0 (PIL blends intermediate mask values, but the masks used
here are binary). -/
def pasteMasked (canvas img : Img) (mask : Nat → Nat → Nat) : Img :=
  { width := canvas.width, height := canvas.height,
    pix := fun x y => if mask x y = 0 then canvas.pix x y else img.pix x y }

/-- A slot as read by `process_photo` (app.py:225-228): `slot["w"]`,
`slot["h"]`, `slot.get("radius", 0)`, `slot.get("fit_mode", "auto")`.
Width and height are nonnegative sizes here. -/
structure Slot where
  w : Nat
  h : Nat
  radius : Int
  fit_mode : Option String

/-- `ImageOps.exif_transpose` normalizes EXIF orientation before any
geometry (app.py:231); photos in this model carry no EXIF metadata, on
which it is the identity. -/
def exifTranspose (photo : Img) : Img :=
  photo

/-- Python `s.lower()` (character-wise; the fit-mode strings here are
ASCII). -/
def pyLower (s : String) : String :=
  String.mk (s.toList.map Char.toLower)

/-- app.py:228 + 233-234: `slot.get("fit_mode", "auto").lower()`,
replaced by `"auto"` when not one of the three supported modes. -/
def effFitModeOf (m : Option String) : String :=
  let r := pyLower (m.getD "auto")
  if r = "auto" ∨ r = "cover" ∨ r = "contain" then r else "auto"

/-- app.py:236-237: `width / height if height else 1`. -/
def aspectOf (wdt hgt : Nat) : ℚ :=
  if hgt = 0 then 1 else qdiv (wdt : ℚ) (hgt : ℚ)

/-- app.py:238: `max(photo_ratio, slot_ratio) / min(photo_ratio,
slot_ratio) if min(photo_ratio, slot_ratio) else 1`. -/
def ratioDiffQ (pA sA : ℚ) : ℚ :=
  if min pA sA = 0 then 1 else qdiv (max pA sA) (min pA sA)

/-- app.py:241: `fit_mode == "contain" or (fit_mode == "auto" and
ratio_diff > 1.2)`, on the un-transposed photo (EXIF transpose is the
identity here). -/
def UseContainCond (photo : Img) (w h : Nat) (m : Option String) : Prop :=
  effFitModeOf m = "contain"
  ∨ (effFitModeOf m = "auto"
      ∧ ratioDiffQ (aspectOf photo.width photo.height) (aspectOf w h) > mkRat 6 5)

/-- `process_photo` (app.py:209-266). -/
def process_photo (photo : Img) (slot : Slot) : Img :=
  let width := slot.w
  let height := slot.h
  let radius := slot.radius
  let normalized := exifTranspose photo
  let fitMode := effFitModeOf slot.fit_mode
  let ratioDiff := ratioDiffQ (aspectOf normalized.width normalized.height)
    (aspectOf width height)
  let useContain := fitMode = "contain" ∨ (fitMode = "auto" ∧ ratioDiff > mkRat 6 5)
  let fitted :=
    if useContain then
      let f := imageOpsContain normalized width height
      pasteAt (newImg width height transparent) f
        (Int.fdiv ((width : Int) - f.width) 2) (Int.fdiv ((height : Int) - f.height) 2)
    else imageOpsFit normalized width height
  if 0 < radius then
    pasteMasked (newImg width height transparent) fitted
      (create_rounded_mask width height radius)
  else fitted

/-- Strictly inside the ideal rounded rectangle over
`[0, w-1] × [0, h-1]` with corner radius `radius`: every boundary
inequality strict. -/
def StrictlyInside (w h : Nat) (radius x y : Int) : Prop :=
  0 < x ∧ x < (w : Int) - 1 ∧ 0 < y ∧ y < (h : Int) - 1
  ∧ (radius ≤ x ∨ radius ≤ y ∨ (radius - x) ^ 2 + (radius - y) ^ 2 < radius ^ 2)
  ∧ (x ≤ (w : Int) - 1 - radius ∨ radius ≤ y
      ∨ (x - ((w : Int) - 1 - radius)) ^ 2 + (radius - y) ^ 2 < radius ^ 2)
  ∧ (radius ≤ x ∨ y ≤ (h : Int) - 1 - radius
      ∨ (radius - x) ^ 2 + (y - ((h : Int) - 1 - radius)) ^ 2 < radius ^ 2)
  ∧ (x ≤ (w : Int) - 1 - radius ∨ y ≤ (h : Int) - 1 - radius
      ∨ (x - ((w : Int) - 1 - radius)) ^ 2 + (y - ((h : Int) - 1 - radius)) ^ 2 < radius ^ 2)

/-- Strictly outside the ideal rounded rectangle: beyond the bounding
box, or strictly beyond a corner disc inside a corner square. -/
def StrictlyOutside (w h : Nat) (radius x y : Int) : Prop :=
  x < 0 ∨ (w : Int) - 1 < x ∨ y < 0 ∨ (h : Int) - 1 < y
  ∨ (x < radius ∧ y < radius
      ∧ radius ^ 2 < (radius - x) ^ 2 + (radius - y) ^ 2)
  ∨ ((w : Int) - 1 - radius < x ∧ y < radius
      ∧ radius ^ 2 < (x - ((w : Int) - 1 - radius)) ^ 2 + (radius - y) ^ 2)
  ∨ (x < radius ∧ (h : Int) - 1 - radius < y
      ∧ radius ^ 2 < (radius - x) ^ 2 + (y - ((h : Int) - 1 - radius)) ^ 2)
  ∨ ((w : Int) - 1 - radius < x ∧ (h : Int) - 1 - radius < y
      ∧ radius ^ 2 < (x - ((w : Int) - 1 - radius)) ^ 2 + (y - ((h : Int) - 1 - radius)) ^ 2)

/-- Every pixel of the image is fully opaque. -/
def FullyOpaque (img : Img) : Prop :=
  ∀ x y, x < img.width → y < img.height → (img.pix x y).a = 255

/-- A 1×1 fully opaque red photo. -/
def photoOpaque1 : Img :=
  newImg 1 1 ⟨255, 0, 0, 255⟩

/-- A 3×3 fully opaque red photo. -/
def photoOpaque3 : Img :=
  newImg 3 3 ⟨255, 0, 0, 255⟩

-- ===================== THEOREMS =====================

theorem isPyInt_iff (u : PyVal) :
    isPyInt u = true ↔ (∃ n, u = .vInt n) ∨ (∃ b, u = .vBool b) := by
  cases u <;> simp [isPyInt]

theorem valid_slot_iff (v : PyVal) : valid_slot v = true ↔ SpecValidSlot v := by
  cases v with
  | vDict a es =>
    simp only [valid_slot, List.all_eq_true, SpecValidSlot]
    constructor
    · intro h
      refine ⟨a, es, rfl, ?_⟩
      intro k hk
      have hv := h k hk
      cases hd : dictGet es k with
      | none => rw [hd] at hv; cases hv
      | some u => rw [hd] at hv; exact ⟨u, rfl, (isPyInt_iff u).mp hv⟩
    · rintro ⟨a', es', heq, h⟩
      injection heq with h1 h2
      subst h2
      intro k hk
      obtain ⟨u, hu, hcase⟩ := h k hk
      rw [hu]
      exact (isPyInt_iff u).mpr hcase
  | vInt n => simp [valid_slot, SpecValidSlot]
  | vBool b => simp [valid_slot, SpecValidSlot]
  | vStr t => simp [valid_slot, SpecValidSlot]
  | vNone => simp [valid_slot, SpecValidSlot]
  | vList a xs => simp [valid_slot, SpecValidSlot]

theorem valid_format_iff (v : PyVal) : valid_format v = true ↔ SpecValidFormat v := by
  cases v with
  | vDict a es =>
    rw [valid_format, Bool.and_eq_true]
    constructor
    · rintro ⟨h1, h2⟩
      refine ⟨a, es, rfl, ?_, ?_⟩
      · cases hs : dictGet es "slots" with
        | none => rw [hs] at h1; cases h1
        | some sv =>
          rw [hs] at h1
          cases sv with
          | vList la slots =>
            rw [Bool.and_eq_true, List.all_eq_true] at h1
            refine ⟨la, slots, rfl, ?_, ?_⟩
            · intro hnil
              subst hnil
              simp at h1
            · intro s hsm
              exact (valid_slot_iff s).mp (h1.2 s hsm)
          | vInt n => cases h1
          | vBool b => cases h1
          | vStr t => cases h1
          | vNone => cases h1
          | vDict b bs => cases h1
      · intro tp htp hne
        rw [htp] at h2
        cases tp with
        | vDict ta tes => exact ⟨ta, tes, rfl⟩
        | vNone => exact absurd rfl hne
        | vInt n => cases h2
        | vBool b => cases h2
        | vStr t => cases h2
        | vList la ls => cases h2
    · rintro ⟨a', es', heq, ⟨la, slots, hs, hne, hall⟩, htp⟩
      injection heq with h1 h2
      subst h2
      rw [hs]
      refine ⟨?_, ?_⟩
      · rw [Bool.and_eq_true, List.all_eq_true]
        refine ⟨?_, ?_⟩
        · simpa using hne
        · intro s hsm
          exact (valid_slot_iff s).mpr (hall s hsm)
      · cases ht : dictGet es "text_pos" with
        | none => rfl
        | some tp =>
          cases tp with
          | vDict ta tes => rfl
          | vNone => rfl
          | vInt n => obtain ⟨ta, tes, htt⟩ := htp _ ht (by intro hh; cases hh); cases htt
          | vBool b => obtain ⟨ta, tes, htt⟩ := htp _ ht (by intro hh; cases hh); cases htt
          | vStr t => obtain ⟨ta, tes, htt⟩ := htp _ ht (by intro hh; cases hh); cases htt
          | vList lb ls => obtain ⟨ta, tes, htt⟩ := htp _ ht (by intro hh; cases hh); cases htt
  | vInt n => simp [valid_format, SpecValidFormat]
  | vBool b => simp [valid_format, SpecValidFormat]
  | vStr t => simp [valid_format, SpecValidFormat]
  | vNone => simp [valid_format, SpecValidFormat]
  | vList a xs => simp [valid_format, SpecValidFormat]

theorem validate_layout_config_iff (c : PyVal) :
    validate_layout_config c = true ↔ SpecValidConfig c := by
  cases c with
  | vDict a es =>
    rw [validate_layout_config]
    constructor
    · intro h
      refine ⟨a, es, rfl, ?_⟩
      cases hf : dictGet es "formats" with
      | none =>
        rw [hf] at h
        exact Or.inr ⟨rfl, (valid_format_iff _).mp h⟩
      | some fv =>
        rw [hf] at h
        cases fv with
        | vDict fa fes =>
          rw [Bool.and_eq_true, List.all_eq_true] at h
          refine Or.inl ⟨fa, fes, rfl, ?_, ?_⟩
          · intro hnil
            subst hnil
            simp at h
          · intro e he
            exact (valid_format_iff e.2).mp (h.2 e he)
        | vInt n => cases h
        | vBool b => cases h
        | vStr t => cases h
        | vNone => cases h
        | vList la ls => cases h
    · rintro ⟨a', es', heq, hcase⟩
      injection heq with h1 h2
      subst h2
      rcases hcase with ⟨fa, fes, hf, hnil, hall⟩ | ⟨hf, hvf⟩
      · rw [hf, Bool.and_eq_true, List.all_eq_true]
        refine ⟨by simpa using hnil, ?_⟩
        intro e he
        exact (valid_format_iff e.2).mpr (hall e he)
      · rw [hf]
        exact (valid_format_iff _).mpr hvf
  | vInt n => simp [validate_layout_config, SpecValidConfig]
  | vBool b => simp [validate_layout_config, SpecValidConfig]
  | vStr t => simp [validate_layout_config, SpecValidConfig]
  | vNone => simp [validate_layout_config, SpecValidConfig]
  | vList a xs => simp [validate_layout_config, SpecValidConfig]

/-- C4: `validate_layout_config(config)` returns true iff config is a
mapping and: when it contains key `formats`, that value is a non-empty
mapping all of whose values are valid formats; otherwise config itself
is a valid format (valid format: a mapping whose `slots` value is a
non-empty list of mappings each containing keys x, y, w, h with integer
values, and whose `text_pos` value, when present, is a mapping).  In
particular it returns false for a format lacking `slots`, for a slot
missing `w`, and for a slot whose `w` is the string `"100"`. -/
theorem validate_layout_config_spec :
    (∀ c, validate_layout_config c = true ↔ SpecValidConfig c)
    ∧ validate_layout_config cfgNoSlots = false
    ∧ validate_layout_config cfgMissingW = false
    ∧ validate_layout_config cfgStringW = false :=
  ⟨validate_layout_config_iff, by decide, by decide, by decide⟩

/-- C9: a configuration whose slot coordinates are Python booleans is
accepted by `validate_layout_config`, because `isinstance(b, int)` is
true for booleans; and such a slot also satisfies the spec-side slot
invariant, which does not exclude booleans. -/
theorem validate_accepts_bool_slot :
    validate_layout_config cfgBoolSlot = true
    ∧ SpecValidSlot (.vDict 2
        [("x", .vBool true), ("y", .vBool false), ("w", .vBool true), ("h", .vBool true)]) := by
  refine ⟨by decide, 2, _, rfl, ?_⟩
  intro k hk
  simp only [List.mem_cons, List.not_mem_nil, or_false] at hk
  rcases hk with rfl | rfl | rfl | rfl
  · exact ⟨.vBool true, rfl, Or.inr ⟨true, rfl⟩⟩
  · exact ⟨.vBool false, rfl, Or.inr ⟨false, rfl⟩⟩
  · exact ⟨.vBool true, rfl, Or.inr ⟨true, rfl⟩⟩
  · exact ⟨.vBool true, rfl, Or.inr ⟨true, rfl⟩⟩

mutual
theorem dcV_le (s : Nat) (v : PyVal) : s ≤ (dcV s v).2 := by
  cases v with
  | vInt n => simp [dcV]
  | vBool b => simp [dcV]
  | vStr t => simp [dcV]
  | vNone => simp [dcV]
  | vList a xs => have h := dcL_le s xs; simp only [dcV]; omega
  | vDict a es => have h := dcE_le s es; simp only [dcV]; omega
theorem dcL_le (s : Nat) (l : List PyVal) : s ≤ (dcL s l).2 := by
  cases l with
  | nil => simp [dcL]
  | cons x xs =>
    have h1 := dcV_le s x
    have h2 := dcL_le (dcV s x).2 xs
    simp only [dcL]
    omega
theorem dcE_le (s : Nat) (l : List (String × PyVal)) : s ≤ (dcE s l).2 := by
  cases l with
  | nil => simp [dcE]
  | cons e es =>
    have h1 := dcV_le s e.2
    have h2 := dcE_le (dcV s e.2).2 es
    simp only [dcE]
    omega
end

mutual
theorem dcV_fresh (s : Nat) (v : PyVal) : ∀ x ∈ addrsV (dcV s v).1, s ≤ x := by
  cases v with
  | vInt n => intro x hx; simp [dcV, addrsV] at hx
  | vBool b => intro x hx; simp [dcV, addrsV] at hx
  | vStr t => intro x hx; simp [dcV, addrsV] at hx
  | vNone => intro x hx; simp [dcV, addrsV] at hx
  | vList a xs =>
    intro x hx
    simp only [dcV, addrsV, List.mem_cons] at hx
    rcases hx with h | h
    · subst h; exact dcL_le s xs
    · exact dcL_fresh s xs x h
  | vDict a es =>
    intro x hx
    simp only [dcV, addrsV, List.mem_cons] at hx
    rcases hx with h | h
    · subst h; exact dcE_le s es
    · exact dcE_fresh s es x h
theorem dcL_fresh (s : Nat) (l : List PyVal) : ∀ x ∈ addrsL (dcL s l).1, s ≤ x := by
  cases l with
  | nil => intro x hx; simp [dcL, addrsL] at hx
  | cons v vs =>
    intro x hx
    simp only [dcL, addrsL, List.mem_append] at hx
    rcases hx with h | h
    · exact dcV_fresh s v x h
    · exact le_trans (dcV_le s v) (dcL_fresh (dcV s v).2 vs x h)
theorem dcE_fresh (s : Nat) (l : List (String × PyVal)) : ∀ x ∈ addrsE (dcE s l).1, s ≤ x := by
  cases l with
  | nil => intro x hx; simp [dcE, addrsE] at hx
  | cons e es =>
    intro x hx
    simp only [dcE, addrsE, List.mem_append] at hx
    rcases hx with h | h
    · exact dcV_fresh s e.2 x h
    · exact le_trans (dcV_le s e.2) (dcE_fresh (dcV s e.2).2 es x h)
end

mutual
theorem strip_dcV (s : Nat) (v : PyVal) : stripV (dcV s v).1 = stripV v := by
  cases v with
  | vInt n => rfl
  | vBool b => rfl
  | vStr t => rfl
  | vNone => rfl
  | vList a xs => simp only [dcV, stripV]; rw [strip_dcL s xs]
  | vDict a es => simp only [dcV, stripV]; rw [strip_dcE s es]
theorem strip_dcL (s : Nat) (l : List PyVal) : stripL (dcL s l).1 = stripL l := by
  cases l with
  | nil => rfl
  | cons v vs =>
    simp only [dcL, stripL]
    rw [strip_dcV s v, strip_dcL (dcV s v).2 vs]
theorem strip_dcE (s : Nat) (l : List (String × PyVal)) : stripE (dcE s l).1 = stripE l := by
  cases l with
  | nil => rfl
  | cons e es =>
    simp only [dcE, stripE]
    rw [strip_dcV s e.2, strip_dcE (dcV s e.2).2 es]
end

mutual
theorem mutAtV_not_mem (a : Nat) (f : List (String × PyVal) → List (String × PyVal))
    (v : PyVal) (h : a ∉ addrsV v) : mutAtV a f v = v := by
  cases v with
  | vInt n => rfl
  | vBool b => rfl
  | vStr t => rfl
  | vNone => rfl
  | vList b xs =>
    simp only [addrsV, List.mem_cons, not_or] at h
    simp only [mutAtV]
    rw [mutAtL_not_mem a f xs h.2]
  | vDict b es =>
    simp only [addrsV, List.mem_cons, not_or] at h
    simp only [mutAtV]
    rw [if_neg (by intro hh; exact h.1 hh.symm), mutAtE_not_mem a f es h.2]
theorem mutAtL_not_mem (a : Nat) (f : List (String × PyVal) → List (String × PyVal))
    (l : List PyVal) (h : a ∉ addrsL l) : mutAtL a f l = l := by
  cases l with
  | nil => rfl
  | cons v vs =>
    simp only [addrsL, List.mem_append, not_or] at h
    simp only [mutAtL]
    rw [mutAtV_not_mem a f v h.1, mutAtL_not_mem a f vs h.2]
theorem mutAtE_not_mem (a : Nat) (f : List (String × PyVal) → List (String × PyVal))
    (l : List (String × PyVal)) (h : a ∉ addrsE l) : mutAtE a f l = l := by
  cases l with
  | nil => rfl
  | cons e es =>
    simp only [addrsE, List.mem_append, not_or] at h
    simp only [mutAtE]
    rw [mutAtV_not_mem a f e.2 h.1, mutAtE_not_mem a f es h.2]
end

theorem addrsE_dictSet (es : List (String × PyVal)) (k : String) (v : PyVal) :
    ∀ x ∈ addrsE (dictSet es k v), x ∈ addrsE es ∨ x ∈ addrsV v := by
  induction es with
  | nil => intro x hx; simp only [dictSet, addrsE, List.append_nil] at hx; exact Or.inr hx
  | cons e es ih =>
    intro x hx
    by_cases he : e.1 = k
    · simp only [dictSet, if_pos he, addrsE, List.mem_append] at hx
      rcases hx with h | h
      · exact Or.inr h
      · exact Or.inl (by simp only [addrsE, List.mem_append]; exact Or.inr h)
    · simp only [dictSet, if_neg he, addrsE, List.mem_append] at hx
      rcases hx with h | h
      · exact Or.inl (by simp only [addrsE, List.mem_append]; exact Or.inl h)
      · rcases ih x h with h' | h'
        · exact Or.inl (by simp only [addrsE, List.mem_append]; exact Or.inr h')
        · exact Or.inr h'

theorem stripE_dictSet (es : List (String × PyVal)) (k : String) (v : PyVal) :
    stripE (dictSet es k v) = dictSet (stripE es) k (stripV v) := by
  induction es with
  | nil => rfl
  | cons e es ih =>
    by_cases he : e.1 = k
    · simp only [dictSet, stripE, if_pos he]
    · simp only [dictSet, stripE, if_neg he, ih]

/-- C1 counterexample: in the legacy single-format case,
`get_format_config` returns the stored config object itself (same
identity address 0), so appending a computed key to the returned
mapping mutates the stored configuration — the returned mapping is not
independent of the stored config. -/
theorem get_format_config_aliasing_cx :
    validate_layout_config cfgLegacyC1 = true
    ∧ (get_format_config cfgLegacyC1 "default" 10).1 = cfgLegacyC1
    ∧ (0 : Nat) ∈ addrsV (get_format_config cfgLegacyC1 "default" 10).1
    ∧ mutAtV 0 addComputedKey cfgLegacyC1 ≠ cfgLegacyC1 := by
  refine ⟨by decide, rfl, by decide, ?_⟩
  intro h
  exact absurd (congrArg dictLen h) (by decide)

/-- C1 (amended): in the multi-format case, `get_format_config` returns
a mapping whose content equals the chosen format's entry merged with the
global `font_size`/`font_color`, and mutating any of its dict/list
nodes other than those reached through the aliased global `font_size`
(and `font_color`) values leaves the stored config unchanged; in the
legacy case it returns the stored config object itself. -/
theorem get_format_config_amended :
    (∀ (ca fa ea supply : Nat) (es fes ees : List (String × PyVal)) (name : String),
      dictGet es "formats" = some (.vDict fa fes) →
      dictGet fes name = some (.vDict ea ees) →
      (∀ x ∈ addrsV (.vDict ca es), x < supply) →
      stripV (get_format_config (.vDict ca es) name supply).1 = mergedFormatEntry es ees
      ∧ ∀ x ∈ addrsV (get_format_config (.vDict ca es) name supply).1,
          x ∉ optAddrs (dictGet es "font_size") →
          x ∉ optAddrs (dictGet es "font_color") →
          ∀ f, mutAtV x f (.vDict ca es) = .vDict ca es)
    ∧ (∀ (ca supply : Nat) (es : List (String × PyVal)) (name : String),
        dictGet es "formats" = none →
        (get_format_config (.vDict ca es) name supply).1 = .vDict ca es) := by
  constructor
  · intro ca fa ea supply es fes ees name hf he hfresh
    have hred : (get_format_config (.vDict ca es) name supply).1
        = .vDict (dcE (supply + 1) ees).2
            (dictSet
              (dictSet (dcE (supply + 1) ees).1 "font_size"
                ((dictGet es "font_size").getD (.vDict ((dcE (supply + 1) ees).2 + 1) [])))
              "font_color" ((dictGet es "font_color").getD (.vStr "#FFFFFF"))) := by
      simp only [get_format_config, hf, he, Option.getD_some, dcV]
    constructor
    · rw [hred]
      simp only [stripV, stripE_dictSet, strip_dcE, mergedFormatEntry]
      rcases hfs : dictGet es "font_size" with _ | v <;>
        simp [hfs, stripV, stripE]
    · intro x hx hnfs hnfc f
      rw [hred] at hx
      simp only [addrsV, List.mem_cons] at hx
      rcases hx with rfl | hx
      · apply mutAtV_not_mem
        intro hmem
        have h1 := hfresh _ hmem
        have h2 := dcE_le (supply + 1) ees
        omega
      · rcases addrsE_dictSet _ _ _ x hx with hx1 | hx1
        · rcases addrsE_dictSet _ _ _ x hx1 with hx2 | hx2
          · have h1 := dcE_fresh (supply + 1) ees x hx2
            apply mutAtV_not_mem
            intro hmem
            have h2 := hfresh _ hmem
            omega
          · rcases hfs : dictGet es "font_size" with _ | v
            · rw [hfs] at hx2
              simp only [Option.getD_none, addrsV, addrsE, List.mem_cons,
                List.not_mem_nil, or_false] at hx2
              subst hx2
              apply mutAtV_not_mem
              intro hmem
              have h2 := hfresh _ hmem
              have h3 := dcE_le (supply + 1) ees
              omega
            · rw [hfs] at hx2
              simp only [Option.getD_some] at hx2
              refine absurd ?_ hnfs
              rw [hfs]
              exact hx2
        · rcases hfc : dictGet es "font_color" with _ | v
          · rw [hfc] at hx1
            simp only [Option.getD_none, addrsV, List.not_mem_nil] at hx1
          · rw [hfc] at hx1
            simp only [Option.getD_some] at hx1
            refine absurd ?_ hnfc
            rw [hfc]
            exact hx1
  · intro ca supply es name hf
    simp only [get_format_config, hf]

/-- C1 witness: the amended theorem applied to a concrete multi-format
config (fresh supply 10) and to a concrete legacy config. -/
theorem get_format_config_amended_witness :
    stripV (get_format_config cfgMultiC1 "feed" 10).1 = mergedFormatEntry esMultiC1 eesFeedC1
    ∧ (get_format_config cfgLegacyC1 "default" 10).1 = cfgLegacyC1 := by
  refine ⟨?_, ?_⟩
  · exact (get_format_config_amended.1 0 1 2 10 esMultiC1
      [("feed", .vDict 2 eesFeedC1)] eesFeedC1 "feed" rfl rfl (by decide)).1
  · exact get_format_config_amended.2 0 10
      [("slots", .vList 1 [.vDict 2 [("x", .vInt 0), ("y", .vInt 0),
        ("w", .vInt 100), ("h", .vInt 100)]])] "default" rfl

theorem parse_foldl_from (l : List Char) (a : Nat) :
    l.foldl (fun a c => 10 * a + (c.toNat - 48)) a = a * 10 ^ l.length + parseDigits l := by
  induction l generalizing a with
  | nil => simp [parseDigits]
  | cons c l ih =>
    simp only [List.foldl_cons, List.length_cons, parseDigits]
    rw [ih (10 * a + (c.toNat - 48)), ih (10 * 0 + (c.toNat - 48))]
    ring

theorem parseDigits_cons (c : Char) (l : List Char) :
    parseDigits (c :: l) = (c.toNat - 48) * 10 ^ l.length + parseDigits l := by
  have h : parseDigits (c :: l)
      = l.foldl (fun a c => 10 * a + (c.toNat - 48)) (10 * 0 + (c.toNat - 48)) := rfl
  rw [h, parse_foldl_from]
  norm_num

theorem parseDigits_append (l1 l2 : List Char) :
    parseDigits (l1 ++ l2) = parseDigits l1 * 10 ^ l2.length + parseDigits l2 := by
  simp only [parseDigits, List.foldl_append]
  exact parse_foldl_from l2 _

theorem digitChar10_val : ∀ d, d < 10 → (digitChar10 d).toNat - 48 = d := by decide

theorem digitChar10_isDigit : ∀ d, d < 10 → (digitChar10 d).isDigit = true := by decide

theorem digitsRevAux_eq (fuel : Nat) : ∀ n, n ≤ fuel → digitsRevAux fuel n = Nat.digits 10 n := by
  induction fuel with
  | zero =>
    intro n hn
    interval_cases n
    simp [digitsRevAux]
  | succ fuel ih =>
    intro n hn
    match n with
    | 0 => simp [digitsRevAux]
    | m + 1 =>
      have hdiv : (m + 1) / 10 ≤ fuel := by
        have := Nat.div_lt_self (Nat.succ_pos m) (by norm_num : 1 < 10)
        omega
      simp only [digitsRevAux]
      rw [Nat.digits_def' (by norm_num : (1 : ℕ) < 10) (Nat.succ_pos m), ih _ hdiv]

theorem parse_rev_map (l : List Nat) (h : ∀ d ∈ l, d < 10) :
    parseDigits ((l.map digitChar10).reverse) = Nat.ofDigits 10 l := by
  induction l with
  | nil => simp [parseDigits, Nat.ofDigits_nil]
  | cons d l ih =>
    simp only [List.map_cons, List.reverse_cons]
    rw [parseDigits_append, ih (fun x hx => h x (List.mem_cons_of_mem d hx)), Nat.ofDigits_cons]
    have hd := digitChar10_val d (h d (List.mem_cons_self d l))
    simp only [parseDigits, List.foldl_cons, List.foldl_nil, List.length_singleton]
    rw [Nat.mul_zero, Nat.zero_add, hd]
    ring

theorem natToChars_parse (n : Nat) : parseDigits (natToChars n) = n := by
  by_cases h : n = 0
  · subst h; decide
  · rw [natToChars, if_neg h, digitsRevAux_eq n n le_rfl,
      parse_rev_map _ (fun d hd => Nat.digits_lt_base (by norm_num) hd)]
    exact Nat.ofDigits_digits 10 n

theorem natToChars_digits (n : Nat) : ∀ c ∈ natToChars n, c.isDigit = true := by
  by_cases h : n = 0
  · subst h; decide
  · rw [natToChars, if_neg h, digitsRevAux_eq n n le_rfl]
    intro c hc
    rw [List.mem_reverse] at hc
    obtain ⟨d, hd, rfl⟩ := List.mem_map.mp hc
    exact digitChar10_isDigit d (Nat.digits_lt_base (by norm_num) hd)

theorem natToChars_ne_nil (n : Nat) : natToChars n ≠ [] := by
  by_cases h : n = 0
  · subst h; decide
  · rw [natToChars, if_neg h, digitsRevAux_eq n n le_rfl]
    simp [Nat.digits_ne_nil_iff_ne_zero.mpr h]

theorem natToChars_len_le (n : Nat) (h : n < 1000) : (natToChars n).length ≤ 3 := by
  by_cases h0 : n = 0
  · subst h0; decide
  · rw [natToChars, if_neg h0, digitsRevAux_eq n n le_rfl]
    simp only [List.length_reverse, List.length_map]
    rw [Nat.digits_len 10 n (by norm_num) h0]
    have hlog := (Nat.lt_pow_iff_log_lt (by norm_num : (1 : ℕ) < 10) h0).mp
      (show n < 10 ^ 3 by omega)
    omega

theorem natToChars_len1 (n : Nat) (h : n < 10) : (natToChars n).length = 1 := by
  by_cases h0 : n = 0
  · subst h0; decide
  · rw [natToChars, if_neg h0, digitsRevAux_eq n n le_rfl]
    simp only [List.length_reverse, List.length_map]
    rw [Nat.digits_len 10 n (by norm_num) h0]
    have hlog := (Nat.lt_pow_iff_log_lt (by norm_num : (1 : ℕ) < 10) h0).mp
      (show n < 10 ^ 1 by omega)
    omega

theorem natToChars_len2 (n : Nat) (h1 : 10 ≤ n) (h2 : n < 100) : (natToChars n).length = 2 := by
  have h0 : n ≠ 0 := by omega
  rw [natToChars, if_neg h0, digitsRevAux_eq n n le_rfl]
  simp only [List.length_reverse, List.length_map]
  rw [Nat.digits_len 10 n (by norm_num) h0]
  have hlog2 := (Nat.lt_pow_iff_log_lt (by norm_num : (1 : ℕ) < 10) h0).mp
    (show n < 10 ^ 2 by omega)
  have hlog1 : ¬ Nat.log 10 n < 1 := by
    intro hc
    exact absurd ((Nat.lt_pow_iff_log_lt (by norm_num : (1 : ℕ) < 10) h0).mpr hc) (by omega)
  omega

theorem parse_replicate_zero (k : Nat) : parseDigits (List.replicate k '0') = 0 := by
  induction k with
  | zero => rfl
  | succ k ih =>
    rw [List.replicate_succ, parseDigits_cons, ih,
      (by decide : ('0'.toNat - 48) = 0)]
    norm_num

theorem parse_padTo3 (l : List Char) : parseDigits (padTo3 l) = parseDigits l := by
  rw [padTo3, parseDigits_append, parse_replicate_zero]
  norm_num

theorem padTo3_len (l : List Char) (h : l.length ≤ 3) : (padTo3 l).length = 3 := by
  simp only [padTo3, List.length_append, List.length_replicate]
  omega

theorem padTo3_digits (l : List Char) (h : ∀ c ∈ l, c.isDigit = true) :
    ∀ c ∈ padTo3 l, c.isDigit = true := by
  intro c hc
  rw [padTo3, List.mem_append] at hc
  rcases hc with hc | hc
  · rw [List.eq_of_mem_replicate hc]; decide
  · exact h c hc

theorem parse_pad2 (n : Nat) : parseDigits (pad2Chars n) = n := by
  rw [pad2Chars]
  split
  · rw [parseDigits_cons]
    have h0 : ('0'.toNat - 48) = 0 := rfl
    rw [h0, natToChars_parse]
    ring
  · exact natToChars_parse n

theorem pad2_len (n : Nat) (h : n < 100) : (pad2Chars n).length = 2 := by
  rw [pad2Chars]
  split
  · rename_i h10
    rw [List.length_cons, natToChars_len1 n h10]
  · rename_i h10
    exact natToChars_len2 n (by omega) h

theorem pad2_digits (n : Nat) : ∀ c ∈ pad2Chars n, c.isDigit = true := by
  rw [pad2Chars]
  split <;> intro c hc
  · rcases List.mem_cons.mp hc with rfl | hc
    · decide
    · exact natToChars_digits n c hc
  · exact natToChars_digits n c hc

theorem pad2_ne_nil (n : Nat) : pad2Chars n ≠ [] := by
  rw [pad2Chars]
  split
  · simp
  · exact natToChars_ne_nil n

theorem commaAux_filter (fuel : Nat) : ∀ n, n ≤ fuel →
    (commaAux fuel n).filter Char.isDigit ≠ []
    ∧ parseDigits ((commaAux fuel n).filter Char.isDigit) = n := by
  induction fuel with
  | zero =>
    intro n hn
    interval_cases n
    exact ⟨by decide, by decide⟩
  | succ fuel ih =>
    intro n hn
    rw [commaAux]
    split
    · rw [List.filter_eq_self.mpr (natToChars_digits n)]
      exact ⟨natToChars_ne_nil n, natToChars_parse n⟩
    · rename_i h1000
      have hdiv : n / 1000 ≤ fuel := by
        have := Nat.div_lt_self (by omega : 0 < n) (by norm_num : 1 < 1000)
        omega
      have hih := ih (n / 1000) hdiv
      have hmod : n % 1000 < 1000 := Nat.mod_lt n (by norm_num)
      have hp3 : (',' :: padTo3 (natToChars (n % 1000))).filter Char.isDigit
          = padTo3 (natToChars (n % 1000)) := by
        rw [List.filter_cons]
        have : (','.isDigit) = false := rfl
        rw [this]
        simp only [Bool.false_eq_true, if_false]
        exact List.filter_eq_self.mpr (padTo3_digits _ (natToChars_digits _))
      rw [List.filter_append, hp3]
      have hlen := padTo3_len (natToChars (n % 1000)) (natToChars_len_le _ hmod)
      constructor
      · intro hcontra
        rw [List.append_eq_nil] at hcontra
        rw [hcontra.2] at hlen
        simp at hlen
      · rw [parseDigits_append, hih.2, hlen, parse_padTo3, natToChars_parse]
        have h3 : (10 : ℕ) ^ 3 = 1000 := by norm_num
        rw [h3]
        omega

theorem commaToDot_filter (l : List Char) :
    (commaToDot l).filter Char.isDigit = l.filter Char.isDigit := by
  induction l with
  | nil => rfl
  | cons c l ih =>
    by_cases hc : c = ','
    · subst hc
      rw [show commaToDot (',' :: l) = '.' :: commaToDot l from rfl,
        List.filter_cons, List.filter_cons,
        show ('.'.isDigit) = false from rfl, show (','.isDigit) = false from rfl]
      simp only [Bool.false_eq_true, if_false]
      exact ih
    · simp only [commaToDot, List.map_cons, if_neg hc]
      rw [List.filter_cons, List.filter_cons]
      by_cases hd : c.isDigit
      · rw [hd]
        simp only [if_true]
        rw [show commaToDot l = l.map (fun c => if c = ',' then '.' else c) from rfl] at ih
        rw [ih]
      · simp only [Bool.not_eq_true] at hd
        rw [hd]
        simp only [Bool.false_eq_true, if_false]
        exact ih

theorem commaToDot_of_digits (l : List Char) (h : ∀ c ∈ l, c.isDigit = true) :
    commaToDot l = l := by
  induction l with
  | nil => rfl
  | cons c l ih =>
    have hc : c ≠ ',' := by
      intro hcc
      subst hcc
      have := h ',' (List.mem_cons_self _ _)
      simp at this
    simp only [commaToDot, List.map_cons, if_neg hc]
    rw [show commaToDot l = l.map (fun c => if c = ',' then '.' else c) from rfl] at ih
    rw [ih (fun x hx => h x (List.mem_cons_of_mem c hx))]

theorem commaToDot_commaAux (fuel : Nat) : ∀ n, n ≤ fuel →
    commaToDot (commaAux fuel n) = specGroupDotsAux fuel n := by
  induction fuel with
  | zero =>
    intro n hn
    interval_cases n
    decide
  | succ fuel ih =>
    intro n hn
    rw [commaAux, specGroupDotsAux]
    split
    · exact commaToDot_of_digits _ (natToChars_digits n)
    · rename_i h1000
      have hdiv : n / 1000 ≤ fuel := by
        have := Nat.div_lt_self (by omega : 0 < n) (by norm_num : 1 < 1000)
        omega
      rw [commaToDot, List.map_append, List.map_cons]
      rw [show ((if (',' : Char) = ',' then '.' else ',') = '.') from rfl]
      rw [show (commaAux fuel (n / 1000)).map (fun c => if c = ',' then '.' else c)
            = commaToDot (commaAux fuel (n / 1000)) from rfl]
      rw [ih _ hdiv]
      rw [show (padTo3 (natToChars (n % 1000))).map (fun c => if c = ',' then '.' else c)
            = commaToDot (padTo3 (natToChars (n % 1000))) from rfl]
      rw [commaToDot_of_digits _ (padTo3_digits _ (natToChars_digits _))]

theorem commaOfNat_toDots (n : Nat) : commaToDot (commaOfNat n) = specGroupDots n :=
  commaToDot_commaAux n n le_rfl

theorem isEmpty_false_of_ne_nil {l : List Char} (h : l ≠ []) : l.isEmpty = false := by
  cases l with
  | nil => exact absurd rfl h
  | cons c l => rfl

theorem commaOfNat_filter (n : Nat) :
    (commaOfNat n).filter Char.isDigit ≠ []
    ∧ parseDigits ((commaOfNat n).filter Char.isDigit) = n :=
  commaAux_filter n n le_rfl

theorem format_km_idem (x : String) :
    format_km_value (format_km_value x) = format_km_value x := by
  by_cases hD : x.toList.filter Char.isDigit = []
  · have hout : format_km_value x = "" := by
      simp only [format_km_value, hD, List.isEmpty_nil, if_true]
    rw [hout]
    decide
  · have hiE := isEmpty_false_of_ne_nil hD
    have hout : format_km_value x
        = String.mk (commaToDot (commaOfNat (parseDigits (List.filter Char.isDigit x.toList)))) := by
      simp only [format_km_value, hiE, Bool.false_eq_true, if_false]
    rw [hout]
    have hcf := commaOfNat_filter (parseDigits (List.filter Char.isDigit x.toList))
    have hfil : List.filter Char.isDigit
        (String.mk (commaToDot (commaOfNat (parseDigits (List.filter Char.isDigit x.toList))))).toList
        = List.filter Char.isDigit (commaOfNat (parseDigits (List.filter Char.isDigit x.toList))) :=
      commaToDot_filter _
    simp only [format_km_value, hfil, isEmpty_false_of_ne_nil hcf.1, Bool.false_eq_true,
      if_false, hcf.2]

theorem price_toList (A B : List Char) :
    ("R$ " ++ String.mk A ++ "," ++ String.mk B).toList
      = 'R' :: '$' :: ' ' :: (A ++ ',' :: B) := by
  show ((("R$ ".toList ++ A) ++ ",".toList) ++ B) = 'R' :: '$' :: ' ' :: (A ++ ',' :: B)
  simp

theorem price_filter (A B : List Char) (hB : ∀ c ∈ B, c.isDigit = true) :
    List.filter Char.isDigit ('R' :: '$' :: ' ' :: (commaToDot A ++ ',' :: B))
      = List.filter Char.isDigit A ++ B := by
  rw [List.filter_cons, List.filter_cons, List.filter_cons,
    show ('R'.isDigit) = false from rfl, show ('$'.isDigit) = false from rfl,
    show (' '.isDigit) = false from rfl]
  simp only [Bool.false_eq_true, if_false]
  rw [List.filter_append, List.filter_cons, show (','.isDigit) = false from rfl]
  simp only [Bool.false_eq_true, if_false]
  rw [commaToDot_filter, List.filter_eq_self.mpr hB]

theorem format_price_idem (x : String) :
    format_price_value (format_price_value x) = format_price_value x := by
  by_cases hD : x.toList.filter Char.isDigit = []
  · have hout : format_price_value x = "" := by
      simp only [format_price_value, hD, List.isEmpty_nil, if_true]
    rw [hout]
    decide
  · have hiE := isEmpty_false_of_ne_nil hD
    by_cases hz : parseDigits (List.filter Char.isDigit x.toList) = 0
    · have hout : format_price_value x = "R$ 0,00" := by
        simp only [format_price_value, hiE, Bool.false_eq_true, if_false]
        rw [if_pos hz]
      rw [hout]
      decide
    · have hout : format_price_value x
          = "R$ " ++ String.mk (commaToDot (commaOfNat
                (parseDigits (List.filter Char.isDigit x.toList) / 100)))
            ++ "," ++ String.mk (pad2Chars (parseDigits (List.filter Char.isDigit x.toList) % 100)) := by
        simp only [format_price_value, hiE, Bool.false_eq_true, if_false]
        rw [if_neg hz]
      rw [hout]
      have hcf := commaOfNat_filter (parseDigits (List.filter Char.isDigit x.toList) / 100)
      have hfil := price_filter
        (commaOfNat (parseDigits (List.filter Char.isDigit x.toList) / 100))
        (pad2Chars (parseDigits (List.filter Char.isDigit x.toList) % 100))
        (pad2_digits _)
      have hne : List.filter Char.isDigit
            (commaOfNat (parseDigits (List.filter Char.isDigit x.toList) / 100))
          ++ pad2Chars (parseDigits (List.filter Char.isDigit x.toList) % 100) ≠ [] := by
        intro hc
        exact pad2_ne_nil _ (List.append_eq_nil.mp hc).2
      have hmod : parseDigits (List.filter Char.isDigit x.toList) % 100 < 100 :=
        Nat.mod_lt _ (by norm_num)
      have hparse : parseDigits
            (List.filter Char.isDigit
              (commaOfNat (parseDigits (List.filter Char.isDigit x.toList) / 100))
            ++ pad2Chars (parseDigits (List.filter Char.isDigit x.toList) % 100))
          = parseDigits (List.filter Char.isDigit x.toList) := by
        rw [parseDigits_append, hcf.2, pad2_len _ hmod, parse_pad2]
        have h2 : (10 : ℕ) ^ 2 = 100 := by norm_num
        rw [h2]
        omega
      simp only [format_price_value, price_toList, hfil, isEmpty_false_of_ne_nil hne,
        Bool.false_eq_true, if_false, hparse]
      rw [if_neg hz]

theorem year_toList (A B : List Char) :
    (String.mk A ++ "/" ++ String.mk B).toList = A ++ '/' :: B := by
  show ((A ++ "/".toList) ++ B) = A ++ '/' :: B
  simp

theorem format_year_idem (x : String) :
    format_year_value (format_year_value x) = format_year_value x := by
  by_cases hD : x.toList.filter Char.isDigit = []
  · have hout : format_year_value x = "" := by
      simp only [format_year_value, hD, List.isEmpty_nil, if_true]
    rw [hout]
    decide
  · have hall8 : ∀ c ∈ (List.filter Char.isDigit x.toList).take 8, c.isDigit = true :=
      fun c hc => List.of_mem_filter (List.mem_of_mem_take hc)
    have hne8 : (List.filter Char.isDigit x.toList).take 8 ≠ [] := by
      intro hc
      rcases List.take_eq_nil_iff.mp hc with h8 | h8
      · cases h8
      · exact hD h8
    have htake8 : ((List.filter Char.isDigit x.toList).take 8).take 8
        = (List.filter Char.isDigit x.toList).take 8 :=
      List.take_of_length_le (List.length_take_le 8 _)
    by_cases hlen : ((List.filter Char.isDigit x.toList).take 8).length ≤ 4
    · have hout : format_year_value x = String.mk ((List.filter Char.isDigit x.toList).take 8) := by
        simp only [format_year_value, isEmpty_false_of_ne_nil hD, Bool.false_eq_true, if_false]
        rw [if_pos hlen]
      rw [hout]
      have hfil : List.filter Char.isDigit
            (String.mk ((List.filter Char.isDigit x.toList).take 8)).toList
          = (List.filter Char.isDigit x.toList).take 8 :=
        List.filter_eq_self.mpr hall8
      simp only [format_year_value, hfil, isEmpty_false_of_ne_nil hne8, Bool.false_eq_true,
        if_false, htake8]
      rw [if_pos hlen]
    · have hout : format_year_value x
          = String.mk (((List.filter Char.isDigit x.toList).take 8).take 4) ++ "/"
            ++ String.mk (((List.filter Char.isDigit x.toList).take 8).drop 4) := by
        simp only [format_year_value, isEmpty_false_of_ne_nil hD, Bool.false_eq_true, if_false]
        rw [if_neg hlen]
      rw [hout]
      have hfil : List.filter Char.isDigit
            (((List.filter Char.isDigit x.toList).take 8).take 4
              ++ '/' :: ((List.filter Char.isDigit x.toList).take 8).drop 4)
          = (List.filter Char.isDigit x.toList).take 8 := by
        rw [List.filter_append, List.filter_cons, show ('/'.isDigit) = false from rfl]
        simp only [Bool.false_eq_true, if_false]
        rw [List.filter_eq_self.mpr (fun c hc => hall8 c (List.mem_of_mem_take hc)),
          List.filter_eq_self.mpr (fun c hc => hall8 c (List.drop_subset 4 _ hc)),
          List.take_append_drop]
      simp only [format_year_value, year_toList, hfil, isEmpty_false_of_ne_nil hne8,
        Bool.false_eq_true, if_false, htake8]
      rw [if_neg hlen]

/-- C8: the three field formatters are idempotent — formatting
already-formatted output reproduces it unchanged, for every input
string. -/
theorem formatters_idempotent (x : String) :
    format_price_value (format_price_value x) = format_price_value x
    ∧ format_km_value (format_km_value x) = format_km_value x
    ∧ format_year_value (format_year_value x) = format_year_value x :=
  ⟨format_price_idem x, format_km_idem x, format_year_idem x⟩

/-- C7: `format_price_value` maps `"85000000"` to `"R$ 850.000,00"`,
maps `"0"` to `"R$ 0,00"`, maps every input with no digit characters to
`""`, and in general renders the input's digits as a fixed-point value:
integer part (value ÷ 100) grouped every three digits with dots,
fractional part (value mod 100) zero-padded to two digits, with the
`"R$ "` prefix. -/
theorem format_price_value_spec :
    format_price_value "85000000" = "R$ 850.000,00"
    ∧ format_price_value "0" = "R$ 0,00"
    ∧ (∀ raw : String, (∀ c ∈ raw.toList, c.isDigit = false) → format_price_value raw = "")
    ∧ (∀ raw : String, raw.toList.filter Char.isDigit ≠ [] →
        format_price_value raw
          = "R$ " ++ String.mk (specGroupDots (parseDigits (raw.toList.filter Char.isDigit) / 100))
            ++ "," ++ String.mk (pad2Chars (parseDigits (raw.toList.filter Char.isDigit) % 100))) := by
  refine ⟨by decide, by decide, ?_, ?_⟩
  · intro raw h
    have hnil : raw.toList.filter Char.isDigit = [] := by
      rw [List.filter_eq_nil_iff]
      intro a ha
      simp [h a ha]
    simp only [format_price_value, hnil, List.isEmpty_nil, if_true]
  · intro raw hD
    by_cases hz : parseDigits (List.filter Char.isDigit raw.toList) = 0
    · have hout : format_price_value raw = "R$ 0,00" := by
        simp only [format_price_value, isEmpty_false_of_ne_nil hD, Bool.false_eq_true, if_false]
        rw [if_pos hz]
      rw [hout, hz]
      decide
    · simp only [format_price_value, isEmpty_false_of_ne_nil hD, Bool.false_eq_true, if_false]
      rw [if_neg hz, commaOfNat_toDots]

/-- C7 witness: the universally quantified parts of
`format_price_value_spec` at concrete inputs. -/
theorem format_price_value_spec_witness :
    format_price_value "abc" = ""
    ∧ format_price_value "1234567"
        = "R$ " ++ String.mk (specGroupDots
              (parseDigits (("1234567" : String).toList.filter Char.isDigit) / 100))
          ++ "," ++ String.mk (pad2Chars
              (parseDigits (("1234567" : String).toList.filter Char.isDigit) % 100)) :=
  ⟨format_price_value_spec.2.2.1 "abc" (by decide),
   format_price_value_spec.2.2.2 "1234567" (by decide)⟩

theorem truncWhile_spec (f : Char → Nat) (W : Int) :
    ∀ fuel t, t.length ≤ fuel →
      truncWhileAux f W fuel t = []
      ∨ (truncWhileAux f W fuel t ≠ []
          ∧ (textWidth f (truncWhileAux f W fuel t ++ eChars) : Int) ≤ W
          ∧ ∃ rest, truncWhileAux f W fuel t ++ rest = t) := by
  intro fuel
  induction fuel with
  | zero =>
    intro t ht
    have : t = [] := List.eq_nil_of_length_eq_zero (Nat.le_zero.mp ht)
    subst this
    left
    rfl
  | succ fuel ih =>
    intro t ht
    cases t with
    | nil => left; rfl
    | cons c cs =>
      rw [truncWhileAux]
      split
      · have hlen : (c :: cs).dropLast.length ≤ fuel := by
          simp only [List.length_dropLast, List.length_cons] at ht ⊢
          omega
        rcases ih _ hlen with h | ⟨h1, h2, rest, h3⟩
        · left; exact h
        · right
          refine ⟨h1, h2, rest ++ [(c :: cs).getLast (by simp)], ?_⟩
          rw [← List.append_assoc, h3, List.dropLast_append_getLast]
      · rename_i hw
        right
        exact ⟨by simp, not_lt.mp hw, [], List.append_nil _⟩
      simp

theorem truncWhile_nil_spec (f : Char → Nat) (W : Int) :
    ∀ fuel t, t.length ≤ fuel → truncWhileAux f W fuel t = [] →
      ∀ p : List Char, p ≠ [] → (∃ rest, p ++ rest = t) →
        W < (textWidth f (p ++ eChars) : Int) := by
  intro fuel
  induction fuel with
  | zero =>
    intro t ht _ p hp hpre
    obtain ⟨rest, hrest⟩ := hpre
    have : t = [] := List.eq_nil_of_length_eq_zero (Nat.le_zero.mp ht)
    subst this
    exact absurd (List.append_eq_nil.mp hrest).1 hp
  | succ fuel ih =>
    intro t ht hnil p hp hpre
    cases t with
    | nil =>
      obtain ⟨rest, hrest⟩ := hpre
      exact absurd (List.append_eq_nil.mp hrest).1 hp
    | cons c cs =>
      rw [truncWhileAux] at hnil
      by_cases hw : (textWidth f ((c :: cs) ++ eChars) : Int) > W
      · rw [if_pos hw] at hnil
        obtain ⟨rest, hrest⟩ := hpre
        by_cases hr : rest = []
        · subst hr
          rw [List.append_nil] at hrest
          subst hrest
          exact hw
        · have hdl : p ++ rest.dropLast = (c :: cs).dropLast := by
            rw [← hrest, List.dropLast_append_of_ne_nil _ hr]
          have hlen : (c :: cs).dropLast.length ≤ fuel := by
            simp only [List.length_dropLast, List.length_cons] at ht ⊢
            omega
          exact ih _ hlen hnil p hp ⟨rest.dropLast, hdl⟩
      · rw [if_neg hw] at hnil
        exact absurd hnil (by simp)
      simp

/-- C5 counterexample: with every glyph 10px wide and width bound 30,
the text `"aaaa"` does not fit and the ellipsis alone does fit, yet
`fit_text_to_width` returns the empty string rather than a prefix of
the text followed by `"..."`. -/
theorem fit_text_to_width_cx :
    fit_text_to_width constWidth10 (String.toList "aaaa") 30 = []
    ∧ (textWidth constWidth10 (String.toList "aaaa") : Int) > 30
    ∧ (textWidth constWidth10 eChars : Int) ≤ 30 := by
  refine ⟨by decide, by decide, by decide⟩

/-- C5 (amended): for `W > 0` the returned string's measured width is
at most `W`; the original string is returned when it fits; when it does
not fit and even the ellipsis alone does not fit, the result is empty;
when it does not fit but the ellipsis fits, the result is either a
nonempty prefix of the text followed by `"..."` that fits, or the empty
string when no nonempty prefix followed by `"..."` fits. -/
theorem fit_text_to_width_amended (f : Char → Nat) (text : List Char) (W : Int) (hW : 0 < W) :
    (textWidth f (fit_text_to_width f text W) : Int) ≤ W
    ∧ ((textWidth f text : Int) ≤ W → fit_text_to_width f text W = text)
    ∧ ((textWidth f text : Int) > W → (textWidth f eChars : Int) > W →
        fit_text_to_width f text W = [])
    ∧ ((textWidth f text : Int) > W → (textWidth f eChars : Int) ≤ W →
        (fit_text_to_width f text W = []
          ∧ ∀ p : List Char, p ≠ [] → (∃ rest, p ++ rest = text) →
              W < (textWidth f (p ++ eChars) : Int))
        ∨ (∃ p : List Char, p ≠ [] ∧ (∃ rest, p ++ rest = text)
            ∧ fit_text_to_width f text W = p ++ eChars
            ∧ (textWidth f (p ++ eChars) : Int) ≤ W)) := by
  simp only [fit_text_to_width, if_neg (not_le.mpr hW)]
  by_cases hfit : (textWidth f text : Int) ≤ W
  · rw [if_pos hfit]
    exact ⟨hfit, fun _ => rfl, fun hgt _ => absurd hgt (not_lt.mpr hfit),
      fun hgt _ => absurd hgt (not_lt.mpr hfit)⟩
  · rw [if_neg hfit]
    by_cases hell : (textWidth f eChars : Int) > W
    · rw [if_pos hell]
      refine ⟨by simp [textWidth]; omega, fun h => absurd h hfit, fun _ _ => rfl,
        fun _ h => absurd hell (not_lt.mpr h)⟩
    · rw [if_neg hell]
      rcases truncWhile_spec f W text.length text le_rfl with hnil | ⟨hne, hwid, rest, hpre⟩
      · rw [hnil]
        rw [if_pos rfl]
        refine ⟨by simp [textWidth]; omega, fun h => absurd h hfit, fun _ h => absurd h hell, ?_⟩
        intro _ _
        left
        exact ⟨rfl, truncWhile_nil_spec f W text.length text le_rfl hnil⟩
      · rw [if_neg hne]
        refine ⟨hwid, fun h => absurd h hfit, fun _ h => absurd h hell, ?_⟩
        intro _ _
        right
        exact ⟨truncWhileAux f W text.length text, hne, ⟨rest, hpre⟩, rfl, hwid⟩

/-- C5 witness: the amended theorem at a concrete font, text and
bound. -/
theorem fit_text_to_width_amended_witness :
    (textWidth constWidth10 (fit_text_to_width constWidth10 (String.toList "hello") 32) : Int) ≤ 32
    ∧ fit_text_to_width constWidth10 (String.toList "hi") 32 = String.toList "hi" :=
  ⟨(fit_text_to_width_amended constWidth10 (String.toList "hello") 32 (by decide)).1,
   (fit_text_to_width_amended constWidth10 (String.toList "hi") 32 (by decide)).2.1 (by decide)⟩

theorem qdiv_zero (a : ℚ) : qdiv a 0 = 0 := by
  simp [qdiv]

theorem clampIdx_lt (n : Nat) (h : 0 < n) (i : Int) : clampIdx n i < n := by
  simp only [clampIdx]
  exact lt_of_le_of_lt (min_le_right _ _) (by omega)

theorem inside_of_strict (w h : Nat) (radius x y : Int)
    (hs : StrictlyInside w h radius x y) : InRoundedRect w h radius x y := by
  obtain ⟨h1, h2, h3, h4, h5, h6, h7, h8⟩ := hs
  refine ⟨by omega, by omega, by omega, by omega, ?_, ?_, ?_, ?_⟩
  · rcases h5 with hc | hc | hc
    · exact Or.inl hc
    · exact Or.inr (Or.inl hc)
    · exact Or.inr (Or.inr hc.le)
  · rcases h6 with hc | hc | hc
    · exact Or.inl hc
    · exact Or.inr (Or.inl hc)
    · exact Or.inr (Or.inr hc.le)
  · rcases h7 with hc | hc | hc
    · exact Or.inl hc
    · exact Or.inr (Or.inl hc)
    · exact Or.inr (Or.inr hc.le)
  · rcases h8 with hc | hc | hc
    · exact Or.inl hc
    · exact Or.inr (Or.inl hc)
    · exact Or.inr (Or.inr hc.le)

theorem notIn_of_strictOut (w h : Nat) (radius x y : Int)
    (hs : StrictlyOutside w h radius x y) : ¬ InRoundedRect w h radius x y := by
  intro hin
  obtain ⟨i1, i2, i3, i4, i5, i6, i7, i8⟩ := hin
  rcases hs with hc | hc | hc | hc | ⟨ha, hb, hc⟩ | ⟨ha, hb, hc⟩ | ⟨ha, hb, hc⟩ | ⟨ha, hb, hc⟩
  · omega
  · omega
  · omega
  · omega
  · rcases i5 with hd | hd | hd
    · omega
    · omega
    · linarith
  · rcases i6 with hd | hd | hd
    · omega
    · omega
    · linarith
  · rcases i7 with hd | hd | hd
    · omega
    · omega
    · linarith
  · rcases i8 with hd | hd | hd
    · omega
    · omega
    · linarith

/-- C6: for every slot with positive integer width and height, any
radius and any fit mode, and every input photo, `process_photo` returns
an image whose dimensions are exactly the slot's `(w, h)` (images are
RGBA throughout this model). -/
theorem process_photo_dims (photo : Img) (slot : Slot) (_hw : 0 < slot.w) (_hh : 0 < slot.h) :
    (process_photo photo slot).width = slot.w
    ∧ (process_photo photo slot).height = slot.h := by
  constructor
  · simp only [process_photo]
    split
    · rfl
    · split
      · rfl
      · rfl
  · simp only [process_photo]
    split
    · rfl
    · split
      · rfl
      · rfl

/-- C6 witness: a concrete render has exactly the slot dimensions. -/
theorem process_photo_dims_witness :
    (process_photo photoOpaque1 ⟨3, 2, 0, none⟩).width = 3
    ∧ (process_photo photoOpaque1 ⟨3, 2, 0, none⟩).height = 2 :=
  process_photo_dims photoOpaque1 ⟨3, 2, 0, none⟩ (by decide) (by decide)

/-- C3: a slot with fit mode `auto` renders pixel-identically to the
same slot with mode `contain` whenever
`max(photo_ratio, slot_ratio) / min(photo_ratio, slot_ratio) > 1.2`
(ratios with a zero height treated as 1), and pixel-identically to mode
`cover` otherwise. -/
theorem process_photo_auto_resolves (photo : Img) (w h : Nat) (radius : Int) :
    (qdiv (max (aspectOf photo.width photo.height) (aspectOf w h))
        (min (aspectOf photo.width photo.height) (aspectOf w h)) > mkRat 6 5 →
      process_photo photo ⟨w, h, radius, some "auto"⟩
        = process_photo photo ⟨w, h, radius, some "contain"⟩)
    ∧ (¬ qdiv (max (aspectOf photo.width photo.height) (aspectOf w h))
        (min (aspectOf photo.width photo.height) (aspectOf w h)) > mkRat 6 5 →
      process_photo photo ⟨w, h, radius, some "auto"⟩
        = process_photo photo ⟨w, h, radius, some "cover"⟩) := by
  constructor
  · intro hgt
    have hmin : min (aspectOf photo.width photo.height) (aspectOf w h) ≠ 0 := by
      intro h0
      rw [h0, qdiv_zero] at hgt
      exact absurd hgt (by decide)
    have hrd : ratioDiffQ (aspectOf photo.width photo.height) (aspectOf w h) > mkRat 6 5 := by
      rw [ratioDiffQ, if_neg hmin]
      exact hgt
    simp only [process_photo, exifTranspose]
    rw [show effFitModeOf (some "auto") = "auto" from by decide,
      show effFitModeOf (some "contain") = "contain" from by decide]
    rw [if_pos (Or.inr ⟨rfl, hrd⟩), if_pos (Or.inl rfl)]
  · intro hle
    have hnc : ¬ ratioDiffQ (aspectOf photo.width photo.height) (aspectOf w h) > mkRat 6 5 := by
      rw [ratioDiffQ]
      split
      · exact by decide
      · exact hle
    simp only [process_photo, exifTranspose]
    rw [show effFitModeOf (some "auto") = "auto" from by decide,
      show effFitModeOf (some "cover") = "cover" from by decide]
    have hca : ¬ (("auto" : String) = "contain"
        ∨ (("auto" : String) = "auto"
            ∧ ratioDiffQ (aspectOf photo.width photo.height) (aspectOf w h) > mkRat 6 5)) := by
      rintro (hc | ⟨-, hc⟩)
      · exact absurd hc (by decide)
      · exact hnc hc
    have hcc : ¬ (("cover" : String) = "contain"
        ∨ (("cover" : String) = "auto"
            ∧ ratioDiffQ (aspectOf photo.width photo.height) (aspectOf w h) > mkRat 6 5)) := by
      rintro (hc | ⟨hc, -⟩)
      · exact absurd hc (by decide)
      · exact absurd hc (by decide)
    rw [if_neg hca, if_neg hcc]

/-- C3 witness: a 1×1 photo in a 2×1 auto slot (ratio divergence 2)
renders identically to the contain mode. -/
theorem process_photo_auto_resolves_witness :
    process_photo photoOpaque1 ⟨2, 1, 5, some "auto"⟩
      = process_photo photoOpaque1 ⟨2, 1, 5, some "contain"⟩ :=
  (process_photo_auto_resolves photoOpaque1 2 1 5).1 (by decide)

/-- C10: a slot whose `fit_mode`, after lower-casing, is none of
`auto`, `cover`, `contain` — or whose `fit_mode` key is absent —
renders exactly as the same slot with `fit_mode` `"auto"`. -/
theorem process_photo_fallback (photo : Img) (w h : Nat) (radius : Int) :
    (∀ m : String,
      pyLower m ≠ "auto" → pyLower m ≠ "cover" → pyLower m ≠ "contain" →
      process_photo photo ⟨w, h, radius, some m⟩
        = process_photo photo ⟨w, h, radius, some "auto"⟩)
    ∧ process_photo photo ⟨w, h, radius, none⟩
        = process_photo photo ⟨w, h, radius, some "auto"⟩ := by
  constructor
  · intro m h1 h2 h3
    have hcond : ¬ (pyLower m = "auto" ∨ pyLower m = "cover" ∨ pyLower m = "contain") := by
      rintro (hc | hc | hc)
      · exact h1 hc
      · exact h2 hc
      · exact h3 hc
    have hm : effFitModeOf (some m) = "auto" := by
      simp only [effFitModeOf, Option.getD_some]
      rw [if_neg hcond]
    have ha : effFitModeOf (some "auto") = "auto" := by decide
    simp only [process_photo, exifTranspose, hm, ha]
  · rfl

/-- C10 witness: an unrecognized mode `"Banana"` falls back to
`auto`. -/
theorem process_photo_fallback_witness :
    process_photo photoOpaque1 ⟨2, 2, 0, some "Banana"⟩
      = process_photo photoOpaque1 ⟨2, 2, 0, some "auto"⟩ :=
  (process_photo_fallback photoOpaque1 2 2 0).1 "Banana" (by decide) (by decide) (by decide)

/-- C2 counterexample: a fully opaque 1×1 photo in a 2×1 slot with
radius 0 resolves (via `auto`, ratio divergence 2 > 1.2) to `contain`,
which pads with transparency: the output pixel `(1, 0)` is fully
transparent even though the radius is 0, so the radius-0 result is not
fully opaque at every pixel. -/
theorem process_photo_radius_cx :
    (photoOpaque1.pix 0 0).a = 255
    ∧ photoOpaque1.width = 1 ∧ photoOpaque1.height = 1
    ∧ (process_photo photoOpaque1 ⟨2, 1, 0, some "auto"⟩).pix 1 0 = transparent :=
  ⟨rfl, rfl, rfl, by decide⟩

/-- C2 (amended): with radius ≤ 0 no mask is applied, and when the
resolved fit mode is `cover` a fully opaque photo yields a fully opaque
result (contain-resolved slots may pad with transparency); with
radius > 0, pixels strictly outside the rounded rectangle are fully
transparent and pixels strictly inside equal the corresponding pixel of
the unmasked (radius-0) result. -/
theorem process_photo_mask_amended (photo : Img) (w h : Nat) (radius : Int)
    (m : Option String) (x y : Nat) :
    (radius ≤ 0 → 0 < photo.width → 0 < photo.height → FullyOpaque photo →
      ¬ UseContainCond photo w h m → x < w → y < h →
      ((process_photo photo ⟨w, h, radius, m⟩).pix x y).a = 255)
    ∧ (0 < radius →
        (StrictlyOutside w h radius x y →
          (process_photo photo ⟨w, h, radius, m⟩).pix x y = transparent)
        ∧ (StrictlyInside w h radius x y →
          (process_photo photo ⟨w, h, radius, m⟩).pix x y
            = (process_photo photo ⟨w, h, 0, m⟩).pix x y)) := by
  constructor
  · intro hr hpw hph hop hnc hx hy
    have hnc' : ¬ (effFitModeOf m = "contain"
        ∨ (effFitModeOf m = "auto"
            ∧ ratioDiffQ (aspectOf photo.width photo.height) (aspectOf w h) > mkRat 6 5)) := by
      simpa only [UseContainCond] using hnc
    simp only [process_photo, exifTranspose]
    rw [if_neg (not_lt.mpr hr), if_neg hnc']
    simp only [imageOpsFit, resizeBox, sampleQ]
    exact hop _ _ (clampIdx_lt photo.width hpw _) (clampIdx_lt photo.height hph _)
  · intro hrpos
    constructor
    · intro hout
      have hnotin := notIn_of_strictOut w h radius x y hout
      simp only [process_photo, exifTranspose]
      rw [if_pos hrpos]
      simp only [pasteMasked, create_rounded_mask, if_neg hnotin, if_true]
      rfl
    · intro hin
      have hIn := inside_of_strict w h radius x y hin
      simp only [process_photo, exifTranspose]
      rw [if_pos hrpos, if_neg (by omega : ¬ (0 : Int) < 0)]
      simp only [pasteMasked, create_rounded_mask, if_pos hIn]
      rw [if_neg (by omega : ¬ (255 : Nat) = 0)]

/-- C2 witness: the amended theorem at concrete photos, slots and
pixels. -/
theorem process_photo_mask_amended_witness :
    ((process_photo photoOpaque1 ⟨1, 1, 0, some "cover"⟩).pix 0 0).a = 255
    ∧ (process_photo photoOpaque3 ⟨3, 3, 1, some "cover"⟩).pix 0 0 = transparent
    ∧ (process_photo photoOpaque3 ⟨3, 3, 1, some "cover"⟩).pix 1 1
        = (process_photo photoOpaque3 ⟨3, 3, 0, some "cover"⟩).pix 1 1 := by
  refine ⟨?_, ?_, ?_⟩
  · exact (process_photo_mask_amended photoOpaque1 1 1 0 (some "cover") 0 0).1
      (by decide) (by decide) (by decide) (fun a b _ _ => rfl)
      (by unfold UseContainCond; decide) (by decide) (by decide)
  · exact ((process_photo_mask_amended photoOpaque3 3 3 1 (some "cover") 0 0).2 (by decide)).1
      (by unfold StrictlyOutside; decide)
  · exact ((process_photo_mask_amended photoOpaque3 3 3 1 (some "cover") 1 1).2 (by decide)).2
      (by unfold StrictlyInside; decide)
